import Mathlib

/-!
Verification of the xray resource-relationship tree engine.

Shallow embedding of the tree core: `TreeNode`, `NodeSpec`, the path codec
(`Spec`/`Flatten` via explicit lineages), the hydrator, the sibling orderer,
the differ, the filter engine, and the auxiliary queries, together with
theorems settling the specified properties.

Modelling decisions:
* Go strings are lists of characters (`GoStr`), Go `map[string]string` is an
  association list in which the first binding for a key wins; Go's
  `reflect.DeepEqual` on such maps is extensional equality of lookups.
* Nil pointers are `Option`; a Go runtime panic (nil dereference, index out
  of range) is the `.error ()` branch of `Except Unit`.
* The `Parent` back-reference is not stored: none of the operations under
  verification reads it except `Spec`, whose walk to the root is modelled by
  passing the ancestor lineage down during `Flatten`.
* Functions that recurse into children are written as mutual structural
  recursions over the node and its children list, so that they evaluate on
  concrete inputs.
* `sort.Sort` and `sortorder.NaturalLess` are external library code that is
  not part of the repository sources; they are modelled from the spec where
  so marked.
-/

namespace Xray

/-- Go strings, modelled as lists of characters. -/
abbrev GoStr := List Char

/-- Coerce a Lean string literal to a `GoStr`. -/
def gs (s : String) : GoStr := s.toList

/-- The two-character lineage separator constant (`PathSeparator`). -/
def pathSeparator : GoStr := gs "::"

/-- The reserved `status` attribute key (`StatusKey`). -/
def statusKey : GoStr := gs "status"

/-- The default healthy status (`OkStatus`). -/
def okStatus : GoStr := gs "ok"

/-- Go `map[string]string`, as an association list (first binding wins). -/
abbrev ExtMap := List (GoStr × GoStr)

/-- Go map read `m[k]` (without the ok flag the zero value is the empty
string; `lookupE` keeps the distinction and callers default as Go does). -/
def lookupE (k : GoStr) : ExtMap → Option GoStr
  | [] => none
  | (k', v) :: rest => if k' = k then some v else lookupE k rest

/-- Go map write `m[k] = v`: replace the binding or append a fresh one. -/
def setE (k v : GoStr) : ExtMap → ExtMap
  | [] => [(k, v)]
  | (k', v') :: rest => if k' = k then (k, v) :: rest else (k', v') :: setE k v rest

/-- The keys of a map value. -/
def keysE (m : ExtMap) : List GoStr := m.map (fun p => p.1)

/-- `reflect.DeepEqual` on two string maps: the same lookups at every key of
either map (hence equal key sets and equal values). -/
def extEq (m1 m2 : ExtMap) : Bool :=
  (keysE m1 ++ keysE m2).all (fun k => lookupE k m1 == lookupE k m2)

/-- `TreeNode`: resource kind (`GVR`), instance identity (`ID`), attribute
map (`Extras`) and the owned, ordered children. -/
inductive TreeNode where
  | mk (gvr id : GoStr) (extras : ExtMap) (children : List TreeNode)

/-- The `GVR` field. -/
def TreeNode.gvr : TreeNode → GoStr
  | .mk g _ _ _ => g

/-- The `ID` field. -/
def TreeNode.id : TreeNode → GoStr
  | .mk _ i _ _ => i

/-- The `Extras` field. -/
def TreeNode.extras : TreeNode → ExtMap
  | .mk _ _ e _ => e

/-- The `Children` field. -/
def TreeNode.children : TreeNode → List TreeNode
  | .mk _ _ _ c => c

theorem TreeNode.eta (t : TreeNode) :
    TreeNode.mk t.gvr t.id t.extras t.children = t := by
  cases t
  rfl

theorem sizeOf_lt_of_mem_children {c t : TreeNode} (h : c ∈ t.children) :
    sizeOf c < sizeOf t := by
  cases t with
  | mk g i e cs =>
    simp only [TreeNode.children] at h
    have h1 := List.sizeOf_lt_of_mem h
    simp only [TreeNode.mk.sizeOf_spec]
    omega

/-- `NewTreeNode`: fresh node with default status `ok`. -/
def newTreeNode (g i : GoStr) : TreeNode :=
  .mk g i [(statusKey, okStatus)] []

/-- `CountChildren`. -/
def TreeNode.countChildren (t : TreeNode) : Nat := t.children.length

mutual

/-- `Count`: recursive node count, all nodes when the argument is empty. -/
def TreeNode.count : TreeNode → GoStr → Nat
  | .mk g _ _ cs, gvr =>
    (if g == gvr || gvr == [] then 1 else 0) + countL cs gvr

/-- The children loop of `Count`. -/
def countL : List TreeNode → GoStr → Nat
  | [], _ => 0
  | c :: cs, gvr => c.count gvr + countL cs gvr

end

/-- `IsLeaf`. -/
def TreeNode.isLeaf (t : TreeNode) : Bool := t.countChildren == 0

/-- `Blank`: a node with empty `GVR` and empty `ID`. -/
def TreeNode.blank (t : TreeNode) : Bool := t.gvr == [] && t.id == []

mutual

/-- `Diff` on two present nodes: different child counts, different identity,
kind or attribute map, or a positionally corresponding pair of differing
children. -/
def TreeNode.diff : TreeNode → TreeNode → Bool
  | .mk tg ti te tcs, .mk dg di de dcs =>
    if tcs.length != dcs.length then true
    else if ti != di || tg != dg || !extEq te de then true
    else diffL tcs dcs

/-- The positional children loop of `Diff`, running over the receiver's
children (both lists have equal length when it is reached, so the
second-list-exhausted arm is unreachable). -/
def diffL : List TreeNode → List TreeNode → Bool
  | [], _ => false
  | _ :: _, [] => false
  | a :: as, b :: bs => a.diff b || diffL as bs

end

/-- `Diff` with Go nil-pointer semantics: a nil receiver returns whether the
operand is present; a present receiver immediately calls `d.CountChildren()`,
which dereferences `d` — a runtime panic when `d` is nil. -/
def diffO : Option TreeNode → Option TreeNode → Except Unit Bool
  | none, d => .ok d.isSome
  | some _, none => .error ()
  | some t, some d => .ok (t.diff d)

mutual

/-- The nodes of a subtree, the root first, then each child depth first. -/
def TreeNode.nodes : TreeNode → List TreeNode
  | .mk g i e cs => .mk g i e cs :: nodesL cs

/-- The nodes of a forest. -/
def nodesL : List TreeNode → List TreeNode
  | [] => []
  | c :: cs => c.nodes ++ nodesL cs

end

/-! ### Natural-order comparator and the sibling orderer -/

/-- Byte-wise digit test, as Go does on ASCII. -/
def isDig (c : Char) : Bool := 48 ≤ c.toNat && c.toNat ≤ 57

/-- Modelled from the spec: the natural-order key of a string, built with an
accumulator for the digit run currently being read. The external
`sortorder.NaturalLess` library routine is not part of the sources; the spec
prescribes treating embedded digit runs as numbers and other runs as plain
text. Each maximal digit run becomes `1 :: value`, every other character
becomes `2 :: code`, so that comparing keys position by position compares
digit runs numerically and orders digits before other characters. -/
def natKeyAux : Option Nat → GoStr → List Nat
  | none, [] => []
  | some n, [] => [1, n]
  | none, c :: rest =>
    if isDig c then natKeyAux (some (c.toNat - 48)) rest
    else 2 :: c.toNat :: natKeyAux none rest
  | some n, c :: rest =>
    if isDig c then natKeyAux (some (n * 10 + (c.toNat - 48))) rest
    else 1 :: n :: 2 :: c.toNat :: natKeyAux none rest

/-- The natural-order key of a string. -/
def natKey (s : GoStr) : List Nat := natKeyAux none s

/-- Modelled from the spec: the full comparison key — the natural-order key,
a separator below every key element, then the raw characters realising the
ordinal tie-break. -/
def natEnc (s : GoStr) : List Nat := natKey s ++ 0 :: s.map Char.toNat

/-- Strict lexicographic order on lists of naturals. -/
def lexLt : List Nat → List Nat → Bool
  | [], [] => false
  | [], _ :: _ => true
  | _ :: _, [] => false
  | a :: as, b :: bs => a < b || (a == b && lexLt as bs)

/-- Modelled from the spec: `sortorder.NaturalLess` — natural order with the
plain ordinal comparison as tie-break. -/
def naturalLess (s1 s2 : GoStr) : Bool := lexLt (natEnc s1) (natEnc s2)

/-- `Childrens.Less` compares the identities of two children. -/
def lessNode (a b : TreeNode) : Bool := naturalLess a.id b.id

/-- One insertion step of the stable sort: a new element goes after every
element that is strictly below it and before the first one that is not. -/
def insertNode (a : TreeNode) : List TreeNode → List TreeNode
  | [] => [a]
  | b :: l => if lessNode b a then b :: insertNode a l else a :: b :: l

/-- Modelled from the spec: the stable sort applied to `node.Children`
(`sort.Sort` is external library code; the spec prescribes a stable sort by
the natural-order comparator, and the stable sorted permutation is unique,
here realised by insertion sort). -/
def sortChildren : List TreeNode → List TreeNode
  | [] => []
  | a :: l => insertNode a (sortChildren l)

theorem mem_insertNode {x a : TreeNode} {l : List TreeNode} :
    x ∈ insertNode a l → x = a ∨ x ∈ l := by
  induction l with
  | nil => simp [insertNode]
  | cons b l ih =>
    simp only [insertNode]
    by_cases h : lessNode b a = true
    · simp only [h, if_pos]
      intro hx
      rcases List.mem_cons.1 hx with hx | hx
      · right; exact List.mem_cons.2 (Or.inl hx)
      · rcases ih hx with hx | hx
        · exact Or.inl hx
        · right; exact List.mem_cons.2 (Or.inr hx)
    · simp only [h, Bool.false_eq_true, if_neg, not_false_iff]
      intro hx
      rcases List.mem_cons.1 hx with hx | hx
      · exact Or.inl hx
      · right; exact hx

theorem mem_sortChildren {x : TreeNode} {l : List TreeNode} :
    x ∈ sortChildren l → x ∈ l := by
  induction l with
  | nil => simp [sortChildren]
  | cons a l ih =>
    intro hx
    rcases mem_insertNode hx with hx | hx
    · exact hx ▸ List.mem_cons_self a l
    · exact List.mem_cons.2 (Or.inr (ih hx))

/-- `Sort`: sort the children, then recurse into every child. -/
def TreeNode.sort (t : TreeNode) : TreeNode :=
  .mk t.gvr t.id t.extras
    ((sortChildren t.children).attach.map (fun c => c.val.sort))
termination_by sizeOf t
decreasing_by
  exact sizeOf_lt_of_mem_children (mem_sortChildren c.property)

/-! ### Path codec -/

/-- The per-level values the codec records: kind, identity and the `status`
attribute (a missing key reads as Go's zero value, the empty string). -/
structure Seg where
  gvr : GoStr
  id : GoStr
  status : GoStr
deriving DecidableEq

/-- The status attribute of a node as `Spec` reads it. -/
def statusOf (t : TreeNode) : GoStr := (lookupE statusKey t.extras).getD []

/-- The codec values of one node. -/
def segOf (t : TreeNode) : Seg := ⟨t.gvr, t.id, statusOf t⟩

/-- `NodeSpec`: the three `::`-joined leaf-first chains. The source also
carries a `Parent *NodeSpec` field that no operation under verification
reads, so it is omitted. -/
structure NodeSpec where
  gvrChain : GoStr
  path : GoStr
  status : GoStr
deriving DecidableEq

/-- `strings.Join` with the lineage separator. -/
def joinSep : List GoStr → GoStr
  | [] => []
  | [x] => x
  | x :: y :: rest => x ++ pathSeparator ++ joinSep (y :: rest)

/-- `strings.Split` with the lineage separator: cut at each leftmost
occurrence of `::`. -/
def splitSep : GoStr → List GoStr
  | [] => [[]]
  | [c] => [[c]]
  | c1 :: c2 :: rest =>
    if c1 = ':' ∧ c2 = ':' then [] :: splitSep rest
    else
      match splitSep (c2 :: rest) with
      | [] => [[c1]]
      | g :: gsx => (c1 :: g) :: gsx

/-- `Spec` of a leaf whose leaf-first lineage of codec values is given: the
three chains joined. The source walks `Parent` pointers to collect the
lineage; here it is the explicit argument. -/
def specOfLin (lin : List Seg) : NodeSpec :=
  ⟨joinSep (lin.map Seg.gvr), joinSep (lin.map Seg.id),
    joinSep (lin.map Seg.status)⟩

mutual

/-- `Flatten` relative to the leaf-first lineage `anc` of the receiver (the
receiver's own codec values included): each leaf child contributes its
`Spec`, each internal child recurses. -/
def flattenFrom : TreeNode → List Seg → List NodeSpec
  | .mk _ _ _ cs, anc => flattenL cs anc

/-- The children loop of `Flatten`. -/
def flattenL : List TreeNode → List Seg → List NodeSpec
  | [], _ => []
  | c :: rest, anc =>
    (if c.children.isEmpty then [specOfLin (segOf c :: anc)]
      else flattenFrom c (segOf c :: anc)) ++ flattenL rest anc

end

/-- `Flatten` of a root node (no ancestors above the receiver). -/
def TreeNode.flatten (t : TreeNode) : List NodeSpec := flattenFrom t [segOf t]

mutual

/-- The root-first relative lineages of the leaves below a node: the segment
sequence `Hydrate` walks after consuming the root segment. -/
def leafLins : TreeNode → List (List Seg)
  | .mk _ _ _ cs => leafLinsL cs

/-- The root-first relative leaf lineages of a forest. -/
def leafLinsL : List TreeNode → List (List Seg)
  | [] => []
  | c :: rest =>
    (if c.children.isEmpty then [[segOf c]]
      else (leafLins c).map (fun l => segOf c :: l)) ++ leafLinsL rest

end

/-- A node is well formed for the round trip when it is not blank and its
attribute map is exactly the status binding, with no separator character in
any recorded field. -/
def GoodNode (n : TreeNode) : Prop :=
  n.blank = false ∧ n.extras = [(statusKey, statusOf n)]
    ∧ ':' ∉ n.gvr ∧ ':' ∉ n.id ∧ ':' ∉ statusOf n

instance (n : TreeNode) : Decidable (GoodNode n) := by
  unfold GoodNode
  infer_instance

/-- A tree is well formed for the round trip when its kind/identity pairs
are pairwise distinct and every node is well formed. -/
def GoodTree (t : TreeNode) : Prop :=
  (t.nodes.map (fun n => (n.gvr, n.id))).Nodup ∧ ∀ n ∈ t.nodes, GoodNode n

instance (t : TreeNode) : Decidable (GoodTree t) := by
  unfold GoodTree
  infer_instance

/-! ### Find and the hydrator -/

mutual

/-- `Find`: the receiver itself first, then each child subtree depth first. -/
def TreeNode.find : TreeNode → GoStr → GoStr → Option TreeNode
  | .mk tg ti te tcs, g, i =>
    if tg == g && ti == i then some (.mk tg ti te tcs) else findL tcs g i

/-- The children scan of `Find`, in order. -/
def findL : List TreeNode → GoStr → GoStr → Option TreeNode
  | [], _, _ => none
  | c :: cs, g, i =>
    match c.find g i with
    | some v => some v
    | none => findL cs g i

end

mutual

/-- The position (child-index path) at which `Find` succeeds. Go's `Find`
returns a pointer into the tree; in the pure model the pointer is the path
to the found node, so that the hydrator can update it in place. -/
def findPath : TreeNode → GoStr → GoStr → Option (List Nat)
  | .mk tg ti _ tcs, g, i =>
    if tg == g && ti == i then some []
    else (findPathL tcs g i).map (fun p => p.1 :: p.2)

/-- The children scan of `findPath`, returning the index and inner path. -/
def findPathL : List TreeNode → GoStr → GoStr → Option (Nat × List Nat)
  | [], _, _ => none
  | c :: cs, g, i =>
    match findPath c g i with
    | some p => some (0, p)
    | none => (findPathL cs g i).map (fun q => (q.1 + 1, q.2))

end

mutual

/-- Replace the node at a child-index path by the image of `f`. -/
def updateAt : TreeNode → List Nat → (TreeNode → TreeNode) → TreeNode
  | t, [], f => f t
  | .mk g i e cs, j :: p, f => .mk g i e (updateAtL cs j p f)

/-- `updateAt` inside a children list. -/
def updateAtL : List TreeNode → Nat → List Nat → (TreeNode → TreeNode) → List TreeNode
  | [], _, _, _ => []
  | c :: cs, 0, p, f => updateAt c p f :: cs
  | c :: cs, j + 1, p, f => c :: updateAtL cs j p f

end

/-- The blank-branch assignment of the hydrator: overwrite kind, identity
and the status attribute of the cursor node. -/
def assignSeg (t : TreeNode) (s : Seg) : TreeNode :=
  .mk s.gvr s.id (setE statusKey s.status t.extras) t.children

/-- The fresh child the hydrator builds for a segment: `NewTreeNode` with
the status attribute overwritten. -/
def mkSegNode (s : Seg) : TreeNode :=
  .mk s.gvr s.id (setE statusKey s.status [(statusKey, okStatus)]) []

/-- The inner loop of `Hydrate` for one spec, on the root-first segment
list. The navigation cursor is the node the recursion currently sits at; a
successful `Find` descends to the found position (an in-place update at its
path), a failed one appends a fresh child and descends into it; a blank
cursor is assigned the segment directly and not left. -/
def hydrateChain (t : TreeNode) : List Seg → TreeNode
  | [] => t
  | s :: rest =>
    if t.blank then hydrateChain (assignSeg t s) rest
    else
      match findPath t s.gvr s.id with
      | some p => updateAt t p (fun n => hydrateChain n rest)
      | none => .mk t.gvr t.id t.extras (t.children ++ [hydrateChain (mkSegNode s) rest])

/-- The body of `Hydrate`'s loop for one spec: split the three chains and
walk the segments from the root-most (the last index) to the leaf-most. The
loop indexes the `GVR` and `Status` segment lists at every index below the
`Path` segment count; `.error ()` models the out-of-range runtime panic
raised when either chain splits into fewer segments, while longer chains
are silently truncated. -/
def hydrateStep (root : TreeNode) (ref : NodeSpec) : Except Unit TreeNode :=
  let gvrs := splitSep ref.gvrChain
  let paths := splitSep ref.path
  let sts := splitSep ref.status
  if paths.length ≤ gvrs.length ∧ paths.length ≤ sts.length then
    .ok (hydrateChain root
      (((gvrs.zip paths).zip sts).map (fun p => ⟨p.1.1, p.1.2, p.2⟩)).reverse)
  else .error ()

/-- `Hydrate`: process each spec against a fresh blank root, restarting the
cursor at the root after each spec. -/
def hydrate (refs : List NodeSpec) : Except Unit TreeNode :=
  refs.foldlM hydrateStep (newTreeNode [] [])

/-! ### Filter engine -/

/-- `Filter`: flatten, keep the specs whose haystack — the identity chain
concatenated with the status chain — satisfies the predicate, return the
explicit absent result when none is kept, otherwise hydrate the kept specs.
`.error ()` propagates a hydration panic. -/
def TreeNode.filterNode (t : TreeNode) (q : GoStr) (f : GoStr → GoStr → Bool) :
    Except Unit (Option TreeNode) :=
  let specs := t.flatten
  let kept := specs.filter (fun s => f q (s.path ++ s.status))
  if kept.isEmpty then .ok none
  else (hydrate kept).map some

/-! ### Shallow clone, with the attribute storage made explicit

`ShallowClone` copies the `GVR` and `ID` fields and shares the `Extras`
map pointer. Sharing is a heap property, so this model gives each node an
explicit reference into a store of attribute maps. -/

/-- A store of attribute maps, indexed by references. -/
def ExtStore := Nat → ExtMap

/-- A tree node whose attribute map lives in the store: the other fields of
the source structure (children, parent) are Go zero values on a fresh clone
and are carried here to show the clone is a new node. -/
structure TreeNodeH where
  gvr : GoStr
  id : GoStr
  extrasRef : Nat
  children : List Nat
  parent : Option Nat

/-- `ShallowClone`: a fresh node value with the same kind and identity and
the same `Extras` reference; children and parent are zero values. -/
def shallowCloneH (t : TreeNodeH) : TreeNodeH :=
  ⟨t.gvr, t.id, t.extrasRef, [], none⟩

/-- Write one attribute through a node: update the store at its `Extras`
reference. -/
def setAttr (σ : ExtStore) (r : Nat) (k v : GoStr) : ExtStore :=
  fun r' => if r' = r then setE k v (σ r) else σ r'

/-- Read one attribute through a node. -/
def getAttr (σ : ExtStore) (r : Nat) (k : GoStr) : Option GoStr :=
  lookupE k (σ r)

theorem lookupE_setE (k v : GoStr) (m : ExtMap) :
    lookupE k (setE k v m) = some v := by
  induction m with
  | nil => simp [setE, lookupE]
  | cons p rest ih =>
    by_cases h : p.1 = k
    · simp [setE, lookupE, h]
    · simp [setE, lookupE, h, ih]

/-! ### Supporting lemmas -/

theorem extEq_refl (m : ExtMap) : extEq m m = true := by
  simp [extEq]

mutual

theorem diff_self : ∀ t : TreeNode, t.diff t = false
  | .mk g i e cs => by
    rw [TreeNode.diff]
    simp only [bne_self_eq_false, Bool.or_self, Bool.false_or, extEq_refl,
      Bool.not_true, Bool.or_false, if_false, Bool.false_eq_true, ite_self]
    exact diffL_self cs

theorem diffL_self : ∀ l : List TreeNode, diffL l l = false
  | [] => rfl
  | a :: as => by
    rw [diffL]
    simp only [diff_self a, diffL_self as, Bool.or_self]

end

theorem countL_eq (cs : List TreeNode) (gvr : GoStr) :
    countL cs gvr = (cs.map (fun c => c.count gvr)).sum := by
  induction cs with
  | nil => rfl
  | cons c cs ih => rw [countL, ih]; rfl

theorem nodesL_eq (cs : List TreeNode) :
    nodesL cs = cs.flatMap TreeNode.nodes := by
  induction cs with
  | nil => rfl
  | cons c cs ih => rw [nodesL, ih]; rfl

theorem sort_leaf (g i : GoStr) (e : ExtMap) :
    (TreeNode.mk g i e []).sort = .mk g i e [] := by
  rw [TreeNode.sort]
  rfl

/-! ### Concrete inputs used by counterexamples and witnesses -/

/-- A node carrying only the default status, used by concrete examples. -/
def okNode (g i : String) (cs : List TreeNode) : TreeNode :=
  .mk (gs g) (gs i) [(statusKey, okStatus)] cs

/-- A tree whose two leaves flatten to lineages `q::b::a::r` and `p::b::r`:
the kind/identity pair `b` occurs in two branches. -/
def cexTree0 : TreeNode :=
  okNode "r" "r"
    [okNode "a" "a" [okNode "b" "b" [okNode "q" "q" []]],
      okNode "b" "b" [okNode "p" "p" []]]

/-- Filtering `cexTree0` with a matcher accepting exactly its two haystacks
cross-merges the `b` branches: the `p` leaf is re-attached below `a`. -/
def cexTree1 : TreeNode :=
  okNode "r" "r"
    [okNode "a" "a" [okNode "b" "b" [okNode "q" "q" [], okNode "p" "p" []]]]

/-- Filtering `cexTree1` with the same matcher drops the re-rooted `p` leaf,
whose haystack changed. -/
def cexTree2 : TreeNode :=
  okNode "r" "r" [okNode "a" "a" [okNode "b" "b" [okNode "q" "q" []]]]

/-- A deterministic matcher accepting exactly the two haystacks of
`cexTree0`'s leaves. -/
def cexMatcher : GoStr → GoStr → Bool := fun _ h =>
  h == gs "q::b::a::r" ++ gs "ok::ok::ok::ok"
    || h == gs "p::b::r" ++ gs "ok::ok::ok"

/-! ### C1: Diff against absent operands -/

/-- C1: `Diff(absent, absent)` is "not different" and `Diff(absent, present)`
is "different", as claimed; but `Diff(present, absent)` does not return
"different" — it dereferences the absent operand (`d.CountChildren()` on a
nil `d`), a runtime panic, modelled by the `.error ()` result. The claim's
first part is the intended contract and the code faults instead. -/
theorem c1_diff_absent_operands :
    diffO none none = .ok false
      ∧ (∀ b : TreeNode, diffO none (some b) = .ok true)
      ∧ diffO (some (newTreeNode [] [])) none = .error () :=
  ⟨rfl, fun _ => rfl, rfl⟩

/-! ### C2: malformed specs at hydration time -/

/-- C2, counterexample: a spec whose `GVR` chain splits into one segment
while its `Path` chain splits into two makes `Hydrate` index the `GVR`
segments out of range — the `.error ()` runtime-panic result — instead of
returning any defined `MalformedSpecError` value (no such error exists in
the code, whose `Hydrate` cannot return an error at all). -/
theorem c2_malformed_panics :
    hydrate [⟨gs "a", gs "a::b", gs "ok::ok"⟩] = .error () := rfl

theorem hydrate_foldlM_error (refs : List NodeSpec) (init : TreeNode)
    (h : ∃ r ∈ refs, (splitSep r.gvrChain).length < (splitSep r.path).length
      ∨ (splitSep r.status).length < (splitSep r.path).length) :
    (refs.foldlM hydrateStep init : Except Unit TreeNode) = .error () := by
  induction refs generalizing init with
  | nil => obtain ⟨r, hr, _⟩ := h; exact absurd hr (List.not_mem_nil r)
  | cons a rest ih =>
    obtain ⟨r, hr, hbad⟩ := h
    rcases List.mem_cons.1 hr with hr | hr
    · subst hr
      rw [List.foldlM_cons, hydrateStep]
      rw [if_neg (by omega)]
      rfl
    · rw [List.foldlM_cons, hydrateStep]
      by_cases hc : (splitSep a.path).length ≤ (splitSep a.gvrChain).length
          ∧ (splitSep a.path).length ≤ (splitSep a.status).length
      · rw [if_pos hc]
        exact ih _ ⟨r, hr, hbad⟩
      · rw [if_neg hc]
        rfl

/-- C2, amended: when some spec's `GVR` or `Status` chain splits into fewer
segments than its `Path` chain, `Hydrate` performs an out-of-range chain
access — a runtime panic, modelled by `.error ()` — rather than reporting a
defined `MalformedSpecError`; chains that split into more segments than the
`Path` chain are not an error either: they are silently truncated. -/
theorem c2_amended_mismatch_panics_or_truncates :
    (∀ refs : List NodeSpec,
      (∃ r ∈ refs, (splitSep r.gvrChain).length < (splitSep r.path).length
        ∨ (splitSep r.status).length < (splitSep r.path).length) →
      hydrate refs = .error ())
    ∧ hydrate [⟨gs "x::y", gs "x", gs "ok"⟩]
        = .ok (.mk (gs "x") (gs "x") [(statusKey, okStatus)] []) := by
  constructor
  · intro refs h
    exact hydrate_foldlM_error refs _ h
  · rfl

theorem c2_amended_mismatch_witness :
    hydrate [⟨gs "g::h", gs "x::y", gs "ok"⟩] = .error () :=
  c2_amended_mismatch_panics_or_truncates.1 [⟨gs "g::h", gs "x::y", gs "ok"⟩]
    ⟨⟨gs "g::h", gs "x::y", gs "ok"⟩, by simp, by right; decide⟩

/-! ### C3, counterexample: the round trip fails on a childless tree -/

/-- C3, counterexample: the single-node tree built from the valid spec
`(g, a, ok)` has no leaves below its root, so `Flatten` yields nothing and
rehydration returns a blank root; sorting both sides and diffing reports
"different", refuting the claimed round trip. -/
theorem c3_roundtrip_cex :
    hydrate [⟨gs "g", gs "a", gs "ok"⟩]
        = .ok (.mk (gs "g") (gs "a") [(statusKey, okStatus)] [])
      ∧ (TreeNode.mk (gs "g") (gs "a") [(statusKey, okStatus)] []).flatten = []
      ∧ hydrate ((TreeNode.mk (gs "g") (gs "a") [(statusKey, okStatus)] []).flatten)
          = .ok (newTreeNode [] [])
      ∧ (newTreeNode [] []).sort.diff
          ((TreeNode.mk (gs "g") (gs "a") [(statusKey, okStatus)] []).sort) = true := by
  refine ⟨rfl, rfl, rfl, ?_⟩
  rw [newTreeNode, sort_leaf, sort_leaf]
  rfl

/-! ### C6, counterexample: the filter engine is not idempotent -/

/-- C6, counterexample: with the deterministic matcher accepting exactly the
two leaf haystacks of `cexTree0`, the first filter keeps both leaves but the
hydrator's depth-first ancestor lookup merges the `b` branch of the `p` leaf
into the deeper `b` node of the `a` branch; the re-encoded lineage of `p` no
longer matches, so the second filter drops it and the two results differ. -/
theorem c6_filter_not_idempotent :
    cexTree0.filterNode [] cexMatcher = .ok (some cexTree1)
      ∧ cexTree1.filterNode [] cexMatcher = .ok (some cexTree2)
      ∧ cexTree2.diff cexTree1 = true :=
  ⟨rfl, rfl, rfl⟩

/-! ### C5: the filter engine's absent result -/

/-- C5: `Filter` returns the explicitly absent result — distinguishable from
any present tree — exactly when no flattened leaf spec has a matching
haystack, the haystack being the identity chain concatenated with the status
chain, in that order. -/
theorem c5_filter_absent_iff_no_match
    (t : TreeNode) (q : GoStr) (f : GoStr → GoStr → Bool) :
    t.filterNode q f = .ok none
      ↔ ∀ s ∈ t.flatten, f q (s.path ++ s.status) = false := by
  unfold TreeNode.filterNode
  by_cases h : (t.flatten.filter (fun s => f q (s.path ++ s.status))).isEmpty
  · simp only [h, if_pos]
    constructor
    · intro _ s hs
      rw [List.isEmpty_iff, List.filter_eq_nil_iff] at h
      rcases hb : f q (s.path ++ s.status) with _ | _
      · rfl
      · exact absurd hb (h s hs)
    · intro _
      trivial
  · simp only [h, Bool.false_eq_true, if_neg, not_false_iff]
    constructor
    · intro hcontra
      rcases hh : hydrate (t.flatten.filter (fun s => f q (s.path ++ s.status))) with e | v
      · rw [hh] at hcontra
        exact absurd hcontra (by simp [Except.map])
      · rw [hh] at hcontra
        exact absurd hcontra (by simp [Except.map])
    · intro hall
      exfalso
      rw [List.isEmpty_iff, List.filter_eq_nil_iff] at h
      apply h
      intro s hs
      rw [hall s hs]
      simp

/-! ### C7: natural ordering of siblings -/

/-- C7: sorting siblings with identities `pod-1`, `pod-10`, `pod-2` yields
`pod-1`, `pod-2`, `pod-10`, and `pod-2` compares strictly before `pod-10`
(digit runs compare as numbers). -/
theorem c7_natural_order :
    ((sortChildren
        [newTreeNode [] (gs "pod-1"), newTreeNode [] (gs "pod-10"),
          newTreeNode [] (gs "pod-2")]).map TreeNode.id
      = [gs "pod-1", gs "pod-2", gs "pod-10"])
      ∧ naturalLess (gs "pod-2") (gs "pod-10") = true :=
  ⟨rfl, rfl⟩

/-! ### C8: the recursive node counter -/

mutual

theorem count_empty_eq : ∀ t : TreeNode, t.count [] = t.nodes.length
  | .mk g i e cs => by
    rw [TreeNode.count, TreeNode.nodes]
    rw [countL_empty_eq cs]
    simp [Nat.add_comm]

theorem countL_empty_eq : ∀ cs : List TreeNode, countL cs [] = (nodesL cs).length
  | [] => rfl
  | c :: cs => by
    rw [countL, nodesL, count_empty_eq c, countL_empty_eq cs]
    simp

end

mutual

theorem count_gvr_eq : ∀ (t : TreeNode) (g : GoStr), g ≠ [] →
    t.count g = (t.nodes.filter (fun n => n.gvr == g)).length
  | .mk tg ti te tcs, g, hg => by
    rw [TreeNode.count, TreeNode.nodes]
    have hge : (g == ([] : GoStr)) = false := by simpa using hg
    rw [List.filter_cons, countL_gvr_eq tcs g hg]
    rcases h : (tg == g) with _ | _
    · simp [TreeNode.gvr, h, hge]
    · simp [TreeNode.gvr, h, hge, Nat.add_comm]

theorem countL_gvr_eq : ∀ (cs : List TreeNode) (g : GoStr), g ≠ [] →
    countL cs g = ((nodesL cs).filter (fun n => n.gvr == g)).length
  | [], _, _ => rfl
  | c :: cs, g, hg => by
    rw [countL, nodesL, List.filter_append, count_gvr_eq c g hg,
      countL_gvr_eq cs g hg]
    simp

end

/-- C8: with the empty kind every node of the subtree is counted, including
the receiver; with a non-empty kind exactly the nodes of that kind are. -/
theorem c8_count (t : TreeNode) :
    t.count [] = t.nodes.length
      ∧ ∀ g : GoStr, g ≠ [] →
        t.count g = (t.nodes.filter (fun n => n.gvr == g)).length :=
  ⟨count_empty_eq t, fun g hg => count_gvr_eq t g hg⟩

/-- C8 witness at a concrete two-level tree and the non-empty kind `pods`. -/
theorem c8_count_witness :
    (okNode "apps" "a" [okNode "pods" "p1" [], okNode "pods" "p2" []]).count []
        = (okNode "apps" "a" [okNode "pods" "p1" [], okNode "pods" "p2" []]).nodes.length
      ∧ (okNode "apps" "a" [okNode "pods" "p1" [], okNode "pods" "p2" []]).count (gs "pods")
        = (((okNode "apps" "a" [okNode "pods" "p1" [], okNode "pods" "p2" []]).nodes.filter
            (fun n => n.gvr == gs "pods")).length) :=
  ⟨(c8_count _).1, (c8_count _).2 (gs "pods") (by decide)⟩

/-! ### C9: shallow clone shares the attribute storage -/

/-- C9: the clone keeps the kind and identity, is a fresh node (zero-valued
children and parent), and shares the attribute storage: a write through
either node's reference is read back through the other's. -/
theorem c9_shallow_clone (n : TreeNodeH) (σ : ExtStore) (k v : GoStr) :
    (shallowCloneH n).gvr = n.gvr
      ∧ (shallowCloneH n).id = n.id
      ∧ (shallowCloneH n).extrasRef = n.extrasRef
      ∧ (shallowCloneH n).children = []
      ∧ (shallowCloneH n).parent = none
      ∧ getAttr (setAttr σ (shallowCloneH n).extrasRef k v) n.extrasRef k = some v
      ∧ getAttr (setAttr σ n.extrasRef k v) (shallowCloneH n).extrasRef k = some v := by
  refine ⟨rfl, rfl, rfl, rfl, rfl, ?_, ?_⟩
  · simp [shallowCloneH, setAttr, getAttr, lookupE_setE]
  · simp [shallowCloneH, setAttr, getAttr, lookupE_setE]

/-! ### C10: Find is self-inclusive -/

/-- C10: `Find` tests the receiver before any descendant — a receiver whose
kind and identity match is returned itself — and consequently a hydration
whose next segment repeats the cursor's pair stays on the cursor instead of
adding a child: the two-segment spec `a::a / a::a` hydrates to a single
node. -/
theorem c10_find_self_inclusive :
    (∀ t : TreeNode, t.find t.gvr t.id = some t)
      ∧ (∀ (t : TreeNode) (g i : GoStr), t.gvr = g → t.id = i →
          t.find g i = some t)
      ∧ hydrate [⟨gs "a::a", gs "a::a", gs "ok::ok"⟩]
          = .ok (.mk (gs "a") (gs "a") [(statusKey, okStatus)] []) := by
  have h1 : ∀ t : TreeNode, t.find t.gvr t.id = some t := by
    intro t
    cases t with
    | mk g i e cs =>
      rw [TreeNode.find]
      simp [TreeNode.gvr, TreeNode.id]
  refine ⟨h1, ?_, rfl⟩
  intro t g i hg hi
  subst hg
  subst hi
  exact h1 t

/-- C10 witness: the second conjunct applied at a concrete node. -/
theorem c10_find_witness :
    (newTreeNode (gs "x") (gs "y")).find (gs "x") (gs "y")
      = some (newTreeNode (gs "x") (gs "y")) :=
  c10_find_self_inclusive.2.1 (newTreeNode (gs "x") (gs "y")) (gs "x") (gs "y")
    rfl rfl

/-! ### C4: order properties of the comparator, stability and sortedness -/

theorem lexLt_irrefl : ∀ x : List Nat, lexLt x x = false
  | [] => rfl
  | a :: as => by simp [lexLt, lexLt_irrefl as]

theorem lexLt_asymm : ∀ x y : List Nat, lexLt x y = true → lexLt y x = false
  | [], [] => by simp [lexLt]
  | [], _ :: _ => by simp [lexLt]
  | _ :: _, [] => by simp [lexLt]
  | a :: as, b :: bs => by
    simp only [lexLt, Bool.or_eq_true, Bool.and_eq_true, decide_eq_true_eq,
      beq_iff_eq, Bool.or_eq_false_iff, Bool.and_eq_false_iff,
      decide_eq_false_iff_not]
    rintro (h | ⟨rfl, h⟩)
    · constructor
      · omega
      · left
        simp only [beq_eq_false_iff_ne, ne_eq]
        omega
    · refine ⟨by omega, Or.inr (lexLt_asymm as bs h)⟩

theorem lexLt_trans : ∀ x y z : List Nat,
    lexLt x y = true → lexLt y z = true → lexLt x z = true
  | [], [], _ => by simp [lexLt]
  | [], _ :: _, [] => by simp [lexLt]
  | [], _ :: _, _ :: _ => by simp [lexLt]
  | _ :: _, [], _ => by simp [lexLt]
  | _ :: _, _ :: _, [] => by simp [lexLt]
  | a :: as, b :: bs, c :: cs => by
    simp only [lexLt, Bool.or_eq_true, Bool.and_eq_true, decide_eq_true_eq,
      beq_iff_eq]
    rintro (h1 | ⟨rfl, h1⟩) (h2 | ⟨rfl, h2⟩)
    · left; omega
    · left; omega
    · left; omega
    · right; exact ⟨rfl, lexLt_trans as bs cs h1 h2⟩

theorem lexLt_total_eq : ∀ x y : List Nat,
    lexLt x y = false → lexLt y x = false → x = y
  | [], [], _, _ => rfl
  | [], _ :: _, h, _ => by simp [lexLt] at h
  | _ :: _, [], _, h => by simp [lexLt] at h
  | a :: as, b :: bs, h1, h2 => by
    simp only [lexLt, Bool.or_eq_false_iff, Bool.and_eq_false_iff,
      decide_eq_false_iff_not, beq_eq_false_iff_ne, ne_eq] at h1 h2
    obtain ⟨hab, h1'⟩ := h1
    obtain ⟨hba, h2'⟩ := h2
    have hae : a = b := by omega
    subst hae
    rcases h1' with h1' | h1'
    · exact absurd rfl h1'
    · rcases h2' with h2' | h2'
      · exact absurd rfl h2'
      · rw [lexLt_total_eq as bs h1' h2']

/-- Two identities compare as equal (neither strictly below the other)
exactly when they carry the same full natural-order key. -/
theorem naturalLess_tie_iff (a b : GoStr) :
    (naturalLess a b = false ∧ naturalLess b a = false) ↔ natEnc a = natEnc b := by
  constructor
  · rintro ⟨h1, h2⟩
    exact lexLt_total_eq (natEnc a) (natEnc b) h1 h2
  · intro h
    unfold naturalLess
    rw [h]
    exact ⟨lexLt_irrefl _, lexLt_irrefl _⟩

theorem filter_key_insertNode (a : TreeNode) (l : List TreeNode) (e : List Nat) :
    (insertNode a l).filter (fun c => natEnc c.id == e)
      = if natEnc a.id == e then a :: l.filter (fun c => natEnc c.id == e)
        else l.filter (fun c => natEnc c.id == e) := by
  induction l with
  | nil =>
    simp [insertNode, List.filter_cons]
  | cons b l ih =>
    simp only [insertNode]
    rcases hba : lessNode b a with _ | _
    · simp [List.filter_cons]
    · simp only [if_pos, List.filter_cons]
      rcases h : (natEnc a.id == e) with _ | _
      · rcases hb : (natEnc b.id == e) with _ | _ <;> simp [hb, ih, h]
      · have hbne : (natEnc b.id == e) = false := by
          rw [beq_iff_eq] at h
          rw [beq_eq_false_iff_ne, ne_eq]
          intro hb
          have hbb : natEnc b.id = natEnc a.id := by rw [hb, h]
          unfold lessNode naturalLess at hba
          rw [hbb, lexLt_irrefl] at hba
          exact Bool.false_ne_true hba
        simp [hbne, ih, h]

/-- Stability of the modelled children sort: the subsequence of children
whose identity carries any fixed comparison key is unchanged. -/
theorem filter_key_sortChildren (l : List TreeNode) (e : List Nat) :
    (sortChildren l).filter (fun c => natEnc c.id == e)
      = l.filter (fun c => natEnc c.id == e) := by
  induction l with
  | nil => rfl
  | cons a l ih =>
    rw [sortChildren, filter_key_insertNode, List.filter_cons, ih]

theorem lexLt_neg_trans {x y z : List Nat} (h1 : lexLt x y = false)
    (h2 : lexLt y z = false) : lexLt x z = false := by
  rcases hc : lexLt x z with _ | _
  · rfl
  · by_cases hxy : x = y
    · subst hxy
      rw [hc] at h2
      exact absurd h2 (by simp)
    · have hyx : lexLt y x = true := by
        rcases hyx : lexLt y x with _ | _
        · exact absurd (lexLt_total_eq x y h1 hyx) hxy
        · rfl
      have := lexLt_trans y x z hyx hc
      rw [this] at h2
      exact absurd h2 (by simp)

theorem pairwise_insertNode {a : TreeNode} {l : List TreeNode}
    (h : l.Pairwise (fun x y => lessNode y x = false)) :
    (insertNode a l).Pairwise (fun x y => lessNode y x = false) := by
  induction l with
  | nil => simp [insertNode]
  | cons b l ih =>
    rw [List.pairwise_cons] at h
    obtain ⟨hb, hl⟩ := h
    simp only [insertNode]
    rcases hba : lessNode b a with _ | _
    · simp only [Bool.false_eq_true, if_neg, not_false_iff]
      rw [List.pairwise_cons]
      refine ⟨?_, List.pairwise_cons.2 ⟨hb, hl⟩⟩
      intro x hx
      rcases List.mem_cons.1 hx with rfl | hx
      · exact hba
      · exact lexLt_neg_trans (hb x hx) hba
    · simp only [if_pos]
      rw [List.pairwise_cons]
      constructor
      · intro x hx
        rcases mem_insertNode hx with rfl | hx
        · unfold lessNode naturalLess at hba ⊢
          exact lexLt_asymm _ _ hba
        · exact hb x hx
      · exact ih hl

theorem pairwise_sortChildren (l : List TreeNode) :
    (sortChildren l).Pairwise (fun x y => lessNode y x = false) := by
  induction l with
  | nil => simp [sortChildren]
  | cons a l ih => exact pairwise_insertNode ih

/-- A tree every level of which is ordered by the natural-order comparator:
no child is strictly below an earlier sibling, recursively. -/
inductive TreeSorted : TreeNode → Prop where
  | mk : ∀ (g i : GoStr) (e : ExtMap) (cs : List TreeNode),
      cs.Pairwise (fun x y => lessNode y x = false) →
      (∀ c ∈ cs, TreeSorted c) → TreeSorted (.mk g i e cs)

theorem sort_unfold (t : TreeNode) :
    t.sort = .mk t.gvr t.id t.extras ((sortChildren t.children).map TreeNode.sort) := by
  rw [TreeNode.sort]
  simp

theorem sort_id (t : TreeNode) : t.sort.id = t.id := by
  rw [sort_unfold]
  rfl

theorem treeSorted_sort (t : TreeNode) : TreeSorted t.sort := by
  rw [sort_unfold]
  cases t with
  | mk g i e cs =>
    simp only [TreeNode.gvr, TreeNode.id, TreeNode.extras, TreeNode.children]
    refine TreeSorted.mk _ _ _ _ ?_ ?_
    · refine List.Pairwise.map TreeNode.sort ?_ (pairwise_sortChildren cs)
      intro x y hxy
      unfold lessNode
      rw [sort_id, sort_id]
      exact hxy
    · intro c' hc'
      obtain ⟨c, hc, rfl⟩ := List.mem_map.1 hc'
      have : sizeOf c < sizeOf (TreeNode.mk g i e cs) :=
        sizeOf_lt_of_mem_children (t := .mk g i e cs) (mem_sortChildren hc)
      exact treeSorted_sort c
termination_by sizeOf t
decreasing_by exact this

/-- C4: `Sort` applies the (spec-modelled, stable) sort to the children and
recurses into every child; the sort is stable — the subsequence of children
with any fixed comparison key is preserved, two identities comparing equal
precisely when their keys coincide — and afterwards every level of the tree
is ordered by the natural-order comparator. -/
theorem c4_sort_stable_and_ordered (t : TreeNode) :
    t.sort = .mk t.gvr t.id t.extras ((sortChildren t.children).map TreeNode.sort)
      ∧ (∀ e : List Nat, (sortChildren t.children).filter (fun c => natEnc c.id == e)
          = t.children.filter (fun c => natEnc c.id == e))
      ∧ (∀ a b : GoStr,
          (naturalLess a b = false ∧ naturalLess b a = false) ↔ natEnc a = natEnc b)
      ∧ TreeSorted t.sort :=
  ⟨sort_unfold t, fun e => filter_key_sortChildren t.children e,
    naturalLess_tie_iff, treeSorted_sort t⟩

/-! ### The split/join inverse on colon-free segments -/

theorem splitSep_sep (r : GoStr) :
    splitSep (':' :: ':' :: r) = [] :: splitSep r := by
  rw [splitSep]
  simp

theorem splitSep_cons_ne (c : Char) (r : GoStr) (hc : c ≠ ':') :
    splitSep (c :: r)
      = match splitSep r with
        | [] => [[c]]
        | g :: gsx => (c :: g) :: gsx := by
  cases r with
  | nil => rfl
  | cons d r' =>
    rw [splitSep]
    rw [if_neg (by simp [hc])]

theorem splitSep_ne_nil (s : GoStr) : splitSep s ≠ [] := by
  cases s with
  | nil => simp [splitSep]
  | cons c r =>
    cases r with
    | nil => simp [splitSep]
    | cons d r' =>
      rw [splitSep]
      by_cases h : c = ':' ∧ d = ':'
      · rw [if_pos h]
        simp
      · rw [if_neg h]
        rcases hs : splitSep (d :: r') with _ | ⟨g, gsx⟩ <;> simp

theorem splitSep_noColon (x : GoStr) (hx : ':' ∉ x) : splitSep x = [x] := by
  induction x with
  | nil => rfl
  | cons c r ih =>
    have hc : c ≠ ':' := fun h => hx (h ▸ List.mem_cons_self c r)
    have hr : ':' ∉ r := fun h => hx (List.mem_cons_of_mem c h)
    rw [splitSep_cons_ne c r hc, ih hr]

theorem splitSep_append_sep (x r : GoStr) (hx : ':' ∉ x) :
    splitSep (x ++ pathSeparator ++ r) = x :: splitSep r := by
  induction x with
  | nil =>
    show splitSep (':' :: ':' :: r) = [] :: splitSep r
    exact splitSep_sep r
  | cons c x' ih =>
    have hc : c ≠ ':' := fun h => hx (h ▸ List.mem_cons_self c x')
    have hx' : ':' ∉ x' := fun h => hx (List.mem_cons_of_mem c h)
    show splitSep (c :: (x' ++ pathSeparator ++ r)) = (c :: x') :: splitSep r
    rw [splitSep_cons_ne c _ hc, ih hx']

theorem splitSep_joinSep (xs : List GoStr) (hne : xs ≠ [])
    (hnc : ∀ x ∈ xs, ':' ∉ x) : splitSep (joinSep xs) = xs := by
  induction xs with
  | nil => exact absurd rfl hne
  | cons x xs ih =>
    cases xs with
    | nil =>
      show splitSep x = [x]
      exact splitSep_noColon x (hnc x (List.mem_cons_self x []))
    | cons y ys =>
      show splitSep (x ++ pathSeparator ++ joinSep (y :: ys)) = x :: y :: ys
      rw [splitSep_append_sep x _ (hnc x (List.mem_cons_self x _))]
      rw [ih (by simp) (fun z hz => hnc z (List.mem_cons_of_mem x hz))]

/-- Reassembling the three split chains of a lineage spec recovers the
lineage. -/
theorem zip3_maps (lin : List Seg) :
    (((lin.map Seg.gvr).zip (lin.map Seg.id)).zip (lin.map Seg.status)).map
        (fun p => (⟨p.1.1, p.1.2, p.2⟩ : Seg)) = lin := by
  induction lin with
  | nil => rfl
  | cons s lin ih => simp [ih]

/-! ### Node sets, find-path and update lemmas -/

theorem self_mem_nodes (t : TreeNode) : t ∈ t.nodes := by
  cases t with
  | mk g i e cs =>
    rw [TreeNode.nodes]
    exact List.mem_cons_self _ _

theorem nodesL_append (l1 l2 : List TreeNode) :
    nodesL (l1 ++ l2) = nodesL l1 ++ nodesL l2 := by
  induction l1 with
  | nil => rfl
  | cons c l1 ih => rw [List.cons_append, nodesL, nodesL, ih, List.append_assoc]

theorem mem_nodesL {c : TreeNode} {cs : List TreeNode} (hc : c ∈ cs)
    {n : TreeNode} (hn : n ∈ c.nodes) : n ∈ nodesL cs := by
  induction cs with
  | nil => exact absurd hc (List.not_mem_nil c)
  | cons d cs ih =>
    rw [nodesL, List.mem_append]
    rcases List.mem_cons.1 hc with rfl | hc
    · exact Or.inl hn
    · exact Or.inr (ih hc)

theorem mem_nodes_of_child {c t : TreeNode} (hc : c ∈ t.children)
    {n : TreeNode} (hn : n ∈ c.nodes) : n ∈ t.nodes := by
  cases t with
  | mk g i e cs =>
    rw [TreeNode.nodes]
    exact List.mem_cons_of_mem _ (mem_nodesL (by simpa [TreeNode.children] using hc) hn)

mutual

theorem findPath_none : ∀ (t : TreeNode) (g i : GoStr),
    (∀ n ∈ t.nodes, ¬(n.gvr = g ∧ n.id = i)) → findPath t g i = none
  | .mk tg ti te tcs, g, i, h => by
    rw [findPath]
    have hself := h (.mk tg ti te tcs) (self_mem_nodes _)
    rw [if_neg (by simpa [TreeNode.gvr, TreeNode.id] using hself)]
    rw [findPathL_none tcs g i (fun n hn => h n (by rw [TreeNode.nodes]; exact List.mem_cons_of_mem _ hn))]
    rfl

theorem findPathL_none : ∀ (cs : List TreeNode) (g i : GoStr),
    (∀ n ∈ nodesL cs, ¬(n.gvr = g ∧ n.id = i)) → findPathL cs g i = none
  | [], _, _, _ => rfl
  | c :: cs, g, i, h => by
    rw [findPathL]
    rw [findPath_none c g i (fun n hn => h n (by rw [nodesL, List.mem_append]; exact Or.inl hn))]
    rw [findPathL_none cs g i (fun n hn => h n (by rw [nodesL, List.mem_append]; exact Or.inr hn))]
    rfl

end

theorem findPath_self (t : TreeNode) (g i : GoStr)
    (hx : t.gvr = g ∧ t.id = i) : findPath t g i = some [] := by
  cases t with
  | mk tg ti te tcs =>
    rw [findPath]
    rw [if_pos (by simp [TreeNode.gvr, TreeNode.id] at hx; simp [hx.1, hx.2])]

theorem findPathL_found (done : List TreeNode) (x : TreeNode)
    (after : List TreeNode) (g i : GoStr)
    (hd : ∀ n ∈ nodesL done, ¬(n.gvr = g ∧ n.id = i))
    (hx : x.gvr = g ∧ x.id = i) :
    findPathL (done ++ x :: after) g i = some (done.length, []) := by
  induction done with
  | nil =>
    rw [List.nil_append, findPathL, findPath_self x g i hx]
    rfl
  | cons c done' ih =>
    rw [List.cons_append, findPathL]
    rw [findPath_none c g i (fun n hn => hd n (by rw [nodesL, List.mem_append]; exact Or.inl hn))]
    rw [ih (fun n hn => hd n (by rw [nodesL, List.mem_append]; exact Or.inr hn))]
    rfl

theorem findPath_nil_self {t : TreeNode} {g i : GoStr}
    (h : findPath t g i = some []) : t.gvr = g ∧ t.id = i := by
  cases t with
  | mk tg ti te tcs =>
    rw [findPath] at h
    by_cases hc : (tg == g && ti == i) = true
    · simp only [Bool.and_eq_true, beq_iff_eq] at hc
      exact ⟨hc.1, hc.2⟩
    · rw [if_neg hc] at h
      rcases hq : findPathL tcs g i with _ | q
      · rw [hq] at h
        exact absurd h (by simp)
      · rw [hq] at h
        exact absurd h (by simp)

theorem updateAtL_append (done : List TreeNode) (x : TreeNode)
    (after : List TreeNode) (p : List Nat) (f : TreeNode → TreeNode) :
    updateAtL (done ++ x :: after) done.length p f
      = done ++ updateAt x p f :: after := by
  induction done with
  | nil => rfl
  | cons c done' ih => rw [List.cons_append, List.length_cons, updateAtL, ih, List.cons_append]

theorem hydrateChain_blank (t : TreeNode) (s : Seg) (rest : List Seg)
    (hb : t.blank = true) :
    hydrateChain t (s :: rest) = hydrateChain (assignSeg t s) rest := by
  rw [hydrateChain, if_pos hb]

theorem hydrateChain_create (t : TreeNode) (s : Seg) (rest : List Seg)
    (hb : t.blank = false)
    (hnone : findPath t s.gvr s.id = none) :
    hydrateChain t (s :: rest)
      = .mk t.gvr t.id t.extras (t.children ++ [hydrateChain (mkSegNode s) rest]) := by
  rw [hydrateChain, if_neg (by simp [hb]), hnone]

theorem hydrateChain_found (t : TreeNode) (s : Seg) (rest : List Seg)
    (p : List Nat) (hb : t.blank = false)
    (hp : findPath t s.gvr s.id = some p) :
    hydrateChain t (s :: rest) = updateAt t p (fun n => hydrateChain n rest) := by
  rw [hydrateChain, if_neg (by simp [hb]), hp]

theorem hydrateChain_fields (t : TreeNode) (l : List Seg)
    (hb : t.blank = false)
    (hne : ∀ s ∈ l.head?, ¬(t.gvr = s.gvr ∧ t.id = s.id)) :
    (hydrateChain t l).gvr = t.gvr ∧ (hydrateChain t l).id = t.id
      ∧ (hydrateChain t l).extras = t.extras := by
  cases l with
  | nil => exact ⟨rfl, rfl, rfl⟩
  | cons s rest =>
    have hs := hne s (by simp)
    rcases hfp : findPath t s.gvr s.id with _ | p
    · rw [hydrateChain_create t s rest hb hfp]
      exact ⟨rfl, rfl, rfl⟩
    · cases p with
      | nil => exact absurd (findPath_nil_self hfp) hs
      | cons j p' =>
        rw [hydrateChain_found t s rest (j :: p') hb hfp]
        cases t with
        | mk tg ti te tcs =>
          rw [updateAt]
          exact ⟨rfl, rfl, rfl⟩

/-! ### Shape of the leaf lineages and the flatten bridge -/

mutual

theorem leafLins_ne_nil : ∀ t : TreeNode, t.children ≠ [] → leafLins t ≠ []
  | .mk g i e cs, h => by
    rw [leafLins]
    exact leafLinsL_ne_nil cs (by simpa [TreeNode.children] using h)

theorem leafLinsL_ne_nil : ∀ cs : List TreeNode, cs ≠ [] → leafLinsL cs ≠ []
  | [], h => absurd rfl h
  | c :: rest, _ => by
    rw [leafLinsL]
    rcases hc : c.children.isEmpty with _ | _
    · have hcn : c.children ≠ [] := by
        intro hh
        rw [hh] at hc
        exact absurd hc (by simp)
      have := leafLins_ne_nil c hcn
      simp only [hc, Bool.false_eq_true, if_neg, not_false_iff]
      intro hcontra
      rw [List.append_eq_nil] at hcontra
      exact this (List.map_eq_nil_iff.1 hcontra.1)
    · simp [hc]

end

theorem leafLinsL_head_mem (cs : List TreeNode) (l : List Seg)
    (hl : l ∈ leafLinsL cs) : ∃ c ∈ cs, ∃ l2, l = segOf c :: l2 := by
  induction cs with
  | nil =>
    rw [leafLinsL] at hl
    exact absurd hl (List.not_mem_nil l)
  | cons c rest ih =>
    rw [leafLinsL, List.mem_append] at hl
    rcases hl with hl | hl
    · rcases hc : c.children.isEmpty with _ | _
      · rw [hc] at hl
        simp only [Bool.false_eq_true, if_neg, not_false_iff, List.mem_map] at hl
        obtain ⟨l', _, rfl⟩ := hl
        exact ⟨c, List.mem_cons_self _ _, l', rfl⟩
      · rw [hc] at hl
        simp only [if_pos, List.mem_singleton] at hl
        exact ⟨c, List.mem_cons_self _ _, [], hl⟩
    · obtain ⟨c', hc', l2, hl2⟩ := ih hl
      exact ⟨c', List.mem_cons_of_mem _ hc', l2, hl2⟩

mutual

theorem leafLins_seg_mem : ∀ (t : TreeNode) (l : List Seg), l ∈ leafLins t →
    ∀ s ∈ l, ∃ n ∈ t.nodes, s = segOf n
  | .mk g i e cs, l, hl, s, hs => by
    rw [leafLins] at hl
    obtain ⟨n, hn, rfl⟩ := leafLinsL_seg_mem cs l hl s hs
    exact ⟨n, by rw [TreeNode.nodes]; exact List.mem_cons_of_mem _ hn, rfl⟩

theorem leafLinsL_seg_mem : ∀ (cs : List TreeNode) (l : List Seg),
    l ∈ leafLinsL cs → ∀ s ∈ l, ∃ n ∈ nodesL cs, s = segOf n
  | [], l, hl, _, _ => by
    rw [leafLinsL] at hl
    exact absurd hl (List.not_mem_nil l)
  | c :: rest, l, hl, s, hs => by
    rw [leafLinsL, List.mem_append] at hl
    rcases hl with hl | hl
    · rcases hc : c.children.isEmpty with _ | _
      · rw [hc] at hl
        simp only [Bool.false_eq_true, if_neg, not_false_iff, List.mem_map] at hl
        obtain ⟨l', hl', rfl⟩ := hl
        rcases List.mem_cons.1 hs with rfl | hs
        · exact ⟨c, by rw [nodesL, List.mem_append]; exact Or.inl (self_mem_nodes c), rfl⟩
        · obtain ⟨n, hn, rfl⟩ := leafLins_seg_mem c l' hl' s hs
          exact ⟨n, by rw [nodesL, List.mem_append]; exact Or.inl hn, rfl⟩
      · rw [hc] at hl
        simp only [if_pos, List.mem_singleton] at hl
        subst hl
        rcases List.mem_cons.1 hs with rfl | hs
        · exact ⟨c, by rw [nodesL, List.mem_append]; exact Or.inl (self_mem_nodes c), rfl⟩
        · exact absurd hs (List.not_mem_nil s)
    · obtain ⟨n, hn, rfl⟩ := leafLinsL_seg_mem rest l hl s hs
      exact ⟨n, by rw [nodesL, List.mem_append]; exact Or.inr hn, rfl⟩

end

mutual

theorem flattenFrom_eq : ∀ (t : TreeNode) (anc : List Seg),
    flattenFrom t anc = (leafLins t).map (fun l => specOfLin (l.reverse ++ anc))
  | .mk g i e cs, anc => by
    rw [flattenFrom, leafLins]
    exact flattenL_eq cs anc

theorem flattenL_eq : ∀ (cs : List TreeNode) (anc : List Seg),
    flattenL cs anc = (leafLinsL cs).map (fun l => specOfLin (l.reverse ++ anc))
  | [], _ => rfl
  | c :: rest, anc => by
    rw [flattenL, leafLinsL, List.map_append, flattenL_eq rest anc]
    congr 1
    rcases hc : c.children.isEmpty with _ | _
    · simp only [Bool.false_eq_true, if_neg, not_false_iff]
      rw [flattenFrom_eq c (segOf c :: anc), List.map_map]
      apply List.map_congr_left
      intro l _
      simp [Function.comp, List.reverse_cons, List.append_assoc]
    · simp [hc]

end

theorem flatten_eq (t : TreeNode) :
    t.flatten = (leafLins t).map (fun l => specOfLin (l.reverse ++ [segOf t])) := by
  rw [TreeNode.flatten, flattenFrom_eq]

/-! ### The reconstruction core -/

theorem blank_mk (g i : GoStr) (e : ExtMap) (cs : List TreeNode) :
    (TreeNode.mk g i e cs).blank = (g == [] && i == []) := rfl

theorem nodes_eq_cons (t : TreeNode) : t.nodes = t :: nodesL t.children := by
  cases t with
  | mk g i e cs => rw [TreeNode.nodes]; rfl

theorem setE_status (v : GoStr) :
    setE statusKey v [(statusKey, okStatus)] = [(statusKey, v)] := by
  simp [setE]

theorem mkSegNode_eq_bare (c : TreeNode)
    (he : c.extras = [(statusKey, statusOf c)]) :
    mkSegNode (segOf c) = .mk c.gvr c.id c.extras [] := by
  rw [mkSegNode]
  show TreeNode.mk c.gvr c.id (setE statusKey (statusOf c) [(statusKey, okStatus)]) []
    = TreeNode.mk c.gvr c.id c.extras []
  rw [setE_status, he]

theorem blank_of_fields {a b : TreeNode} (hg : a.gvr = b.gvr) (hi : a.id = b.id) :
    a.blank = b.blank := by
  unfold TreeNode.blank
  rw [hg, hi]

theorem updateAt_nil (t : TreeNode) (f : TreeNode → TreeNode) :
    updateAt t [] f = f t := by
  cases t with
  | mk g i e cs => rw [updateAt]

theorem fold_child (ls : List (List Seg)) (s : Seg) :
    ∀ (g i : GoStr) (e : ExtMap) (done : List TreeNode) (x : TreeNode),
    (g == [] && i == []) = false →
    ¬(g = s.gvr ∧ i = s.id) →
    (∀ n ∈ nodesL done, ¬(n.gvr = s.gvr ∧ n.id = s.id)) →
    x.gvr = s.gvr → x.id = s.id → x.blank = false →
    (∀ l ∈ ls, ∀ s' ∈ (l : List Seg).head?, ¬(s.gvr = s'.gvr ∧ s.id = s'.id)) →
    List.foldl hydrateChain (.mk g i e (done ++ [x])) (ls.map (fun l => s :: l))
      = .mk g i e (done ++ [List.foldl hydrateChain x ls]) := by
  induction ls with
  | nil =>
    intro g i e done x _ _ _ _ _ _ _
    rfl
  | cons l ls' ih =>
    intro g i e done x hb hroot hdone hxg hxi hxb hheads
    rw [List.map_cons, List.foldl_cons, List.foldl_cons]
    have hfp : findPath (.mk g i e (done ++ [x])) s.gvr s.id
        = some [done.length] := by
      rw [findPath, if_neg (by simpa using hroot)]
      have hfl : findPathL (done ++ x :: []) s.gvr s.id = some (done.length, []) :=
        findPathL_found done x [] s.gvr s.id hdone ⟨hxg, hxi⟩
      rw [hfl]
      rfl
    have hstep : hydrateChain (.mk g i e (done ++ [x])) (s :: l)
        = .mk g i e (done ++ [hydrateChain x l]) := by
      rw [hydrateChain_found _ s l [done.length] (by rw [blank_mk]; exact hb) hfp]
      show TreeNode.mk g i e (updateAtL (done ++ x :: []) done.length [] _) = _
      rw [updateAtL_append done x [] [] (fun n => hydrateChain n l)]
      rw [updateAt_nil]
    rw [hstep]
    have hl1 := hheads l (List.mem_cons_self _ _)
    have hfields := hydrateChain_fields x l hxb (by
      intro s' hs'
      have := hl1 s' hs'
      rw [hxg, hxi]
      exact this)
    exact ih g i e done (hydrateChain x l) hb hroot hdone
      (hfields.1.trans hxg) (hfields.2.1.trans hxi)
      ((blank_of_fields hfields.1 hfields.2.1).trans hxb)
      (fun l2 hl2 => hheads l2 (List.mem_cons_of_mem _ hl2))

theorem leafLins_eq (t : TreeNode) : leafLins t = leafLinsL t.children := by
  cases t with
  | mk g i e cs => rw [leafLins]; rfl

mutual

/-- Folding the leaf lineages of a well-formed subtree into its bare root
reconstructs the subtree exactly. -/
theorem hydrate_node : ∀ (u : TreeNode),
    (u.nodes.map (fun n => (n.gvr, n.id))).Nodup →
    (∀ n ∈ u.nodes, n.blank = false ∧ n.extras = [(statusKey, statusOf n)]) →
    List.foldl hydrateChain (.mk u.gvr u.id u.extras []) (leafLins u) = u
  | .mk g i e cs, hnd, hgood => by
    rw [leafLins]
    have hroot := hgood (.mk g i e cs) (self_mem_nodes _)
    have hbl : ((g : GoStr) == [] && (i : GoStr) == []) = false := hroot.1
    have hnd' : (((g, i) :: (nodesL ([] ++ cs)).map (fun n => (n.gvr, n.id))).Nodup) := by
      rw [List.nil_append]
      rw [nodes_eq_cons] at hnd
      simpa [TreeNode.gvr, TreeNode.id, TreeNode.children] using hnd
    have hgood' : ∀ n ∈ nodesL cs,
        n.blank = false ∧ n.extras = [(statusKey, statusOf n)] := by
      intro n hn
      refine hgood n ?_
      rw [nodes_eq_cons]
      exact List.mem_cons_of_mem _ (by simpa [TreeNode.children] using hn)
    have h := hydrate_forest cs g i e [] hnd' hbl hgood'
    simpa using h

/-- Folding the grouped leaf lineages of the remaining children into a
partial parent copy completes it, one child at a time. -/
theorem hydrate_forest : ∀ (todo : List TreeNode) (g i : GoStr) (e : ExtMap)
    (done : List TreeNode),
    (((g, i) :: (nodesL (done ++ todo)).map (fun n => (n.gvr, n.id))).Nodup) →
    ((g == [] && i == []) = false) →
    (∀ n ∈ nodesL todo, n.blank = false ∧ n.extras = [(statusKey, statusOf n)]) →
    List.foldl hydrateChain (.mk g i e done) (leafLinsL todo)
      = .mk g i e (done ++ todo)
  | [], g, i, e, done, _, _, _ => by
    rw [leafLinsL]
    simp
  | c :: todo', g, i, e, done, hnd, hbl, hgood => by
    rw [leafLinsL, List.foldl_append]
    have hnd0 := hnd
    have hcgood := hgood c (by rw [nodesL, List.mem_append]; exact Or.inl (self_mem_nodes c))
    have hnodes : nodesL (done ++ c :: todo')
        = nodesL done ++ (c.nodes ++ nodesL todo') := by
      rw [nodesL_append, nodesL]
    rw [hnodes] at hnd
    rw [List.nodup_cons] at hnd
    obtain ⟨hhead, htail⟩ := hnd
    rw [List.map_append, List.map_append] at hhead htail
    rw [List.nodup_append] at htail
    obtain ⟨hndD, htail2, hdisj⟩ := htail
    rw [List.nodup_append] at htail2
    obtain ⟨hndC, hndT, hdisjCT⟩ := htail2
    have hpairC : (c.gvr, c.id) ∈ c.nodes.map (fun n => (n.gvr, n.id)) :=
      List.mem_map.2 ⟨c, self_mem_nodes c, rfl⟩
    have hrootne : ¬(g = c.gvr ∧ i = c.id) := by
      rintro ⟨h1, h2⟩
      apply hhead
      rw [List.mem_append, List.mem_append]
      right
      left
      rw [h1, h2]
      exact hpairC
    have hdonenot : ∀ n ∈ nodesL done, ¬(n.gvr = c.gvr ∧ n.id = c.id) := by
      rintro n hn ⟨h1, h2⟩
      apply hdisj (List.mem_map.2 ⟨n, hn, rfl⟩)
      rw [List.mem_append]
      left
      rw [h1, h2]
      exact hpairC
    have hfpnone : findPath (.mk g i e done) (segOf c).gvr (segOf c).id = none := by
      apply findPath_none
      intro n hn
      rw [nodes_eq_cons] at hn
      rcases List.mem_cons.1 hn with rfl | hn
      · exact hrootne
      · exact hdonenot n (by simpa [TreeNode.children] using hn)
    have hgroup : List.foldl hydrateChain (.mk g i e done)
        (if c.children.isEmpty then [[segOf c]]
          else (leafLins c).map (fun l => segOf c :: l))
        = .mk g i e (done ++ [c]) := by
      rcases hleaf : c.children.isEmpty with _ | _
      · simp only [hleaf, Bool.false_eq_true, if_neg, not_false_iff]
        have hcne : c.children ≠ [] := by
          intro hh
          rw [hh] at hleaf
          exact absurd hleaf (by simp)
        obtain ⟨l1, ls', hls⟩ := List.exists_cons_of_ne_nil (leafLins_ne_nil c hcne)
        rw [hls, List.map_cons, List.foldl_cons]
        have hcreate : hydrateChain (.mk g i e done) (segOf c :: l1)
            = .mk g i e (done ++ [hydrateChain (.mk c.gvr c.id c.extras []) l1]) := by
          rw [hydrateChain_create _ _ _ (by rw [blank_mk]; exact hbl) hfpnone]
          rw [mkSegNode_eq_bare c hcgood.2]
          rfl
        rw [hcreate]
        have hchild_ne : ∀ l ∈ leafLins c, ∀ s' ∈ (l : List Seg).head?,
            ¬(c.gvr = s'.gvr ∧ c.id = s'.id) := by
          rintro l hl s' hs' ⟨h1, h2⟩
          rw [leafLins_eq] at hl
          obtain ⟨ch, hch, l2, rfl⟩ := leafLinsL_head_mem c.children l hl
          rw [List.head?_cons, Option.mem_def] at hs'
          have hse := Option.some.inj hs'
          subst hse
          have hndC2 := hndC
          rw [nodes_eq_cons, List.map_cons, List.nodup_cons] at hndC2
          apply hndC2.1
          refine List.mem_map.2 ⟨ch, mem_nodesL hch (self_mem_nodes ch), ?_⟩
          show (ch.gvr, ch.id) = (c.gvr, c.id)
          rw [Prod.mk.injEq]
          exact ⟨h1.symm, h2.symm⟩
        have hbareb : (TreeNode.mk c.gvr c.id c.extras []).blank = false := by
          rw [blank_mk]
          exact hcgood.1
        have hfields := hydrateChain_fields (.mk c.gvr c.id c.extras []) l1 hbareb
          (by
            intro s' hs'
            exact hchild_ne l1 (hls ▸ List.mem_cons_self _ _) s' hs')
        have hfc := fold_child ls' (segOf c) g i e done
          (hydrateChain (.mk c.gvr c.id c.extras []) l1) hbl hrootne hdonenot
          (hfields.1) (hfields.2.1)
          ((blank_of_fields hfields.1 hfields.2.1).trans hbareb)
          (fun l2 hl2 => hchild_ne l2 (hls ▸ List.mem_cons_of_mem _ hl2))
        rw [hfc]
        have hrec : List.foldl hydrateChain (.mk c.gvr c.id c.extras [])
            (leafLins c) = c := by
          refine hydrate_node c hndC ?_
          intro n hn
          exact hgood n (by rw [nodesL, List.mem_append]; exact Or.inl hn)
        rw [hls, List.foldl_cons] at hrec
        rw [hrec]
      · simp only [hleaf, if_pos]
        rw [List.foldl_cons, List.foldl_nil]
        rw [hydrateChain_create _ _ _ (by rw [blank_mk]; exact hbl) hfpnone]
        rw [mkSegNode_eq_bare c hcgood.2]
        have hcnil : c.children = [] := List.isEmpty_iff.1 hleaf
        show TreeNode.mk g i e (done ++ [hydrateChain (.mk c.gvr c.id c.extras []) []])
          = TreeNode.mk g i e (done ++ [c])
        rw [show hydrateChain (TreeNode.mk c.gvr c.id c.extras []) [] =
          TreeNode.mk c.gvr c.id c.extras [] from rfl]
        rw [show TreeNode.mk c.gvr c.id c.extras [] = c by rw [← hcnil, TreeNode.eta]]
    rw [hgroup]
    have hnd2 : (((g, i) :: (nodesL ((done ++ [c]) ++ todo')).map
        (fun n => (n.gvr, n.id))).Nodup) := by
      rw [show (done ++ [c]) ++ todo' = done ++ c :: todo' by simp]
      exact hnd0
    have h := hydrate_forest todo' g i e (done ++ [c]) hnd2 hbl
      (fun n hn => hgood n (by rw [nodesL, List.mem_append]; exact Or.inr hn))
    rw [h]
    rw [show (done ++ [c]) ++ todo' = done ++ c :: todo' by simp]

end

/-! ### From the flattened specs back to the lineage fold -/

theorem hydrateStep_good (acc : TreeNode) (lin : List Seg) (hne : lin ≠ [])
    (hnc : ∀ s ∈ lin, ':' ∉ s.gvr ∧ ':' ∉ s.id ∧ ':' ∉ s.status) :
    hydrateStep acc (specOfLin lin) = .ok (hydrateChain acc lin.reverse) := by
  have hg : splitSep (specOfLin lin).gvrChain = lin.map Seg.gvr :=
    splitSep_joinSep _ (by simpa using hne)
      (by
        intro x hx
        obtain ⟨s, hs, rfl⟩ := List.mem_map.1 hx
        exact (hnc s hs).1)
  have hp : splitSep (specOfLin lin).path = lin.map Seg.id :=
    splitSep_joinSep _ (by simpa using hne)
      (by
        intro x hx
        obtain ⟨s, hs, rfl⟩ := List.mem_map.1 hx
        exact (hnc s hs).2.1)
  have hs : splitSep (specOfLin lin).status = lin.map Seg.status :=
    splitSep_joinSep _ (by simpa using hne)
      (by
        intro x hx
        obtain ⟨s, hs, rfl⟩ := List.mem_map.1 hx
        exact (hnc s hs).2.2)
  rw [hydrateStep]
  simp only [hg, hp, hs, List.length_map]
  rw [if_pos ⟨le_refl _, le_refl _⟩]
  rw [zip3_maps]

theorem hydrate_map_specOfLin (lins : List (List Seg)) (root0 : TreeNode)
    (h : ∀ l ∈ lins, l ≠ [] ∧ ∀ s ∈ l, ':' ∉ s.gvr ∧ ':' ∉ s.id ∧ ':' ∉ s.status) :
    ((lins.map specOfLin).foldlM hydrateStep root0 : Except Unit TreeNode)
      = .ok (lins.foldl (fun acc l => hydrateChain acc l.reverse) root0) := by
  induction lins generalizing root0 with
  | nil => rfl
  | cons l lins ih =>
    rw [List.map_cons, List.foldlM_cons]
    have hl := h l (List.mem_cons_self _ _)
    rw [hydrateStep_good root0 l hl.1 hl.2]
    rw [List.foldl_cons]
    exact ih _ (fun l2 hl2 => h l2 (List.mem_cons_of_mem _ hl2))

theorem foldl_congr_fun {α β : Type} (l : List β) (f f' : α → β → α)
    (h : ∀ a b, f a b = f' a b) (init : α) : l.foldl f init = l.foldl f' init := by
  induction l generalizing init with
  | nil => rfl
  | cons b l ih => rw [List.foldl_cons, List.foldl_cons, h, ih]

theorem head_ne_root (t : TreeNode)
    (hnd : (t.nodes.map (fun n => (n.gvr, n.id))).Nodup) :
    ∀ l ∈ leafLins t, ∀ s' ∈ (l : List Seg).head?,
      ¬(t.gvr = s'.gvr ∧ t.id = s'.id) := by
  rintro l hl s' hs' ⟨h1, h2⟩
  rw [leafLins_eq] at hl
  obtain ⟨ch, hch, l2, rfl⟩ := leafLinsL_head_mem t.children l hl
  rw [List.head?_cons, Option.mem_def] at hs'
  have hse := Option.some.inj hs'
  subst hse
  rw [nodes_eq_cons, List.map_cons, List.nodup_cons] at hnd
  apply hnd.1
  refine List.mem_map.2 ⟨ch, mem_nodesL hch (self_mem_nodes ch), ?_⟩
  show (ch.gvr, ch.id) = (t.gvr, t.id)
  rw [Prod.mk.injEq]
  exact ⟨h1.symm, h2.symm⟩

theorem fold_consume_root (ls : List (List Seg)) (s0 : Seg) :
    ∀ (acc : TreeNode),
    acc.gvr = s0.gvr → acc.id = s0.id → acc.blank = false →
    (∀ l ∈ ls, ∀ s' ∈ (l : List Seg).head?, ¬(s0.gvr = s'.gvr ∧ s0.id = s'.id)) →
    List.foldl (fun a l => hydrateChain a (s0 :: l)) acc ls
      = List.foldl hydrateChain acc ls := by
  induction ls with
  | nil => intro acc _ _ _ _; rfl
  | cons l ls' ih =>
    intro acc hag hai hab hheads
    rw [List.foldl_cons, List.foldl_cons]
    have hstep : hydrateChain acc (s0 :: l) = hydrateChain acc l := by
      rw [hydrateChain_found acc s0 l [] hab (findPath_self acc _ _ ⟨hag, hai⟩)]
      rw [updateAt_nil]
    rw [hstep]
    have hfields := hydrateChain_fields acc l hab (by
      intro s' hs'
      have := hheads l (List.mem_cons_self _ _) s' hs'
      rw [hag, hai]
      exact this)
    exact ih (hydrateChain acc l) (hfields.1.trans hag) (hfields.2.1.trans hai)
      ((blank_of_fields hfields.1 hfields.2.1).trans hab)
      (fun l2 hl2 => hheads l2 (List.mem_cons_of_mem _ hl2))

/-- The reconstruction theorem: hydrating the flattened specs of a
well-formed tree whose root has at least one child rebuilds the tree
exactly. -/
theorem hydrate_flatten_good (t : TreeNode) (hg : GoodTree t)
    (hc : t.children ≠ []) : hydrate t.flatten = .ok t := by
  obtain ⟨hnd, hgood⟩ := hg
  have hgood2 : ∀ n ∈ t.nodes, n.blank = false
      ∧ n.extras = [(statusKey, statusOf n)] :=
    fun n hn => ⟨(hgood n hn).1, (hgood n hn).2.1⟩
  rw [hydrate, flatten_eq]
  rw [show (leafLins t).map (fun l => specOfLin (l.reverse ++ [segOf t]))
      = ((leafLins t).map (fun l => l.reverse ++ [segOf t])).map specOfLin by
    rw [List.map_map]
    rfl]
  have hgoodlins : ∀ l' ∈ (leafLins t).map (fun l => l.reverse ++ [segOf t]),
      l' ≠ [] ∧ ∀ s ∈ l', ':' ∉ s.gvr ∧ ':' ∉ s.id ∧ ':' ∉ s.status := by
    intro l' hl'
    obtain ⟨l, hl, rfl⟩ := List.mem_map.1 hl'
    refine ⟨by simp, ?_⟩
    intro s hsm
    rw [List.mem_append] at hsm
    rcases hsm with hsm | hsm
    · rw [List.mem_reverse] at hsm
      obtain ⟨n, hn, rfl⟩ := leafLins_seg_mem t l hl s hsm
      exact (hgood n hn).2.2
    · rw [List.mem_singleton] at hsm
      subst hsm
      exact (hgood t (self_mem_nodes t)).2.2
  rw [hydrate_map_specOfLin _ _ hgoodlins]
  congr 1
  rw [List.foldl_map]
  have hcong := foldl_congr_fun (leafLins t)
    (fun acc l => hydrateChain acc ((l.reverse ++ [segOf t]).reverse))
    (fun acc l => hydrateChain acc (segOf t :: l))
    (fun a b => by simp)
    (newTreeNode [] [])
  rw [hcong]
  obtain ⟨l1, ls, hls⟩ := List.exists_cons_of_ne_nil (leafLins_ne_nil t hc)
  rw [hls, List.foldl_cons]
  have hroot := hgood2 t (self_mem_nodes t)
  have hstep1 : hydrateChain (newTreeNode [] []) (segOf t :: l1)
      = hydrateChain (.mk t.gvr t.id t.extras []) l1 := by
    rw [hydrateChain_blank _ _ _ (by rfl)]
    congr 1
    show TreeNode.mk t.gvr t.id
        (setE statusKey (statusOf t) [(statusKey, okStatus)]) []
      = TreeNode.mk t.gvr t.id t.extras []
    rw [setE_status, hroot.2]
  rw [hstep1]
  have hbare : (TreeNode.mk t.gvr t.id t.extras []).blank = false := by
    rw [blank_mk]
    exact hroot.1
  have hfields := hydrateChain_fields (.mk t.gvr t.id t.extras []) l1 hbare
    (fun s' hs' => head_ne_root t hnd l1 (hls ▸ List.mem_cons_self _ _) s' hs')
  rw [fold_consume_root ls (segOf t) _ hfields.1 hfields.2.1
    ((blank_of_fields hfields.1 hfields.2.1).trans hbare)
    (fun l2 hl2 => head_ne_root t hnd l2 (hls ▸ List.mem_cons_of_mem _ hl2))]
  have hrec := hydrate_node t hnd hgood2
  rw [hls, List.foldl_cons] at hrec
  exact hrec

theorem flatten_ne_nil (t : TreeNode) (hc : t.children ≠ []) :
    t.flatten ≠ [] := by
  rw [flatten_eq]
  intro h
  exact leafLins_ne_nil t hc (List.map_eq_nil_iff.1 h)

/-! ### C3, amended: the round trip on well-formed trees -/

/-- C3, amended: for every tree whose kind/identity pairs are pairwise
distinct, whose nodes are non-blank with exactly the status attribute and no
separator character in any recorded field, and whose root has at least one
child, hydrating the flattened specs rebuilds the tree exactly, so
`Sort(Hydrate(Flatten(T)))` and `Sort(T)` are structurally equal (`Diff`
false). The distinct-pair condition is forced by the depth-first ancestor
lookup, which can merge distinct branches sharing a pair (the spec's own
known ambiguity); the root-child condition by the counterexample, since a
childless root flattens to nothing. -/
theorem c3_amended_roundtrip (t : TreeNode) (hg : GoodTree t)
    (hc : t.children ≠ []) :
    hydrate t.flatten = .ok t ∧ t.sort.diff t.sort = false :=
  ⟨hydrate_flatten_good t hg hc, diff_self t.sort⟩

/-- C3 witness: the amended round trip at the concrete scenario tree
(namespace → deployment → two pods). -/
theorem c3_amended_roundtrip_witness :
    hydrate (okNode "v1/namespaces" "default"
        [okNode "apps/v1/deployments" "default/fred"
          [okNode "v1/pods" "default/fred-1" [],
            okNode "v1/pods" "default/fred-2" []]]).flatten
      = .ok (okNode "v1/namespaces" "default"
        [okNode "apps/v1/deployments" "default/fred"
          [okNode "v1/pods" "default/fred-1" [],
            okNode "v1/pods" "default/fred-2" []]]) :=
  (c3_amended_roundtrip
    (okNode "v1/namespaces" "default"
      [okNode "apps/v1/deployments" "default/fred"
        [okNode "v1/pods" "default/fred-1" [],
          okNode "v1/pods" "default/fred-2" []]])
    (by decide) (by exact List.cons_ne_nil _ _)).1

/-! ### C6, amended: filter idempotence for stable results -/

/-- C6, amended: filter idempotence holds when the filtered tree is
well formed (pairwise-distinct pairs, non-blank status-only nodes, no
separator character), still has a child under its root, and every one of
its re-flattened specs still matches the query — the condition the
counterexample shows can fail, since hydration can re-root a leaf and
change its encoded lineage. Then `Filter(Filter(T,q),q)` returns exactly
`Filter(T,q)` again (both present, `Diff` false); when `Filter(T,q)` is
absent, `Filter` of the absent result dereferences a nil receiver rather
than returning absent. -/
theorem c6_amended_filter_idem (t : TreeNode) (q : GoStr)
    (f : GoStr → GoStr → Bool) (t' : TreeNode)
    (_hfil : t.filterNode q f = .ok (some t'))
    (hg : GoodTree t') (hc : t'.children ≠ [])
    (hall : ∀ s ∈ t'.flatten, f q (s.path ++ s.status) = true) :
    t'.filterNode q f = .ok (some t') ∧ t'.diff t' = false := by
  refine ⟨?_, diff_self t'⟩
  rw [TreeNode.filterNode]
  have hkeep : t'.flatten.filter (fun s => f q (s.path ++ s.status)) = t'.flatten :=
    List.filter_eq_self.2 (fun s hs => hall s hs)
  simp only [hkeep]
  rw [if_neg (by
    rw [List.isEmpty_iff]
    exact flatten_ne_nil t' hc)]
  rw [hydrate_flatten_good t' hg hc]
  rfl

/-- C6 witness: the amended idempotence at a concrete two-level tree and
the all-accepting matcher. -/
theorem c6_amended_filter_idem_witness :
    (okNode "ns" "default" [okNode "po" "p1" []]).filterNode []
        (fun _ _ => true)
      = .ok (some (okNode "ns" "default" [okNode "po" "p1" []]))
      ∧ (okNode "ns" "default" [okNode "po" "p1" []]).diff
          (okNode "ns" "default" [okNode "po" "p1" []]) = false :=
  c6_amended_filter_idem (okNode "ns" "default" [okNode "po" "p1" []]) []
    (fun _ _ => true) (okNode "ns" "default" [okNode "po" "p1" []]) rfl
    (by decide) (List.cons_ne_nil _ _) (by decide)

end Xray
